import Mathlib

/-!
Shallow embedding of `src/main.rs` (solar-nl/cells): a tileable texture
generator combining a toroidal Voronoi distance field, fractal Perlin
noise, a direction-guided blur and a contrast normalizer.

Machine `f32`/`f64` arithmetic is idealized as exact real (or, where the
code only manipulates 8-bit values, rational) arithmetic.  The saturating
`as u8` cast and `f32::round` are modelled exactly, and the places where
the Rust code can produce IEEE special values (`0.0 / 0.0`) are modelled
by the value the surrounding integer cast turns them into, which is noted
at each such definition.
-/

namespace Cells

/-- Model of an `Rgb<u8>` pixel: the three channel values (`p[0]`, `p[1]`,
`p[2]`). -/
structure Pix where
  red : ℕ
  green : ℕ
  blue : ℕ

/-- An image is a total function from pixel coordinates to pixels
(`ImageBuffer::from_fn` applies its closure at each coordinate); the
`width`/`height` stored in the Rust buffer are carried alongside by each
operation. -/
def Img : Type := ℕ → ℕ → Pix

/-- A point in the unit square (`struct Point { x: f32, y: f32 }`). -/
structure Point where
  x : ℝ
  y : ℝ

/-- Saturating conversion of an integral value to `u8` (Rust `as u8` from a
float saturates below at 0 and above at 255; this takes the already
truncated or rounded integer). -/
def satU8 (n : ℤ) : ℕ := (min 255 (max 0 n)).toNat

/-- Rust `f32::round`: round to the nearest integer, halves away from zero. -/
noncomputable def rRound (v : ℝ) : ℤ :=
  if 0 ≤ v then ⌊v + 1 / 2⌋ else -⌊-v + 1 / 2⌋

/-- Texture edge length (`const SIZE: u32 = 512`). -/
def SIZE : ℕ := 512

/-- Number of Voronoi sites (`const NUM_POINTS: usize = 240`). -/
def NUM_POINTS : ℕ := 240

/-- Base blur radius (`const BLUR_RADIUS: i32 = 3`). -/
def BLUR_RADIUS : ℤ := 3

/-- `fn toroidal_distance` (main.rs lines 34-40): per-axis wrapped delta
`min d (1 - d)` for `d = |p1.c - p2.c|`, combined Euclidean-style. -/
noncomputable def toroidal_distance (p1 p2 : Point) : ℝ :=
  let dx := |p1.x - p2.x|
  let dy := |p1.y - p2.y|
  let dxw := min dx (1 - dx)
  let dyw := min dy (1 - dy)
  Real.sqrt (dxw * dxw + dyw * dyw)

/-- Traversal order of the pixel grid used by the generator loops
(`(0..W).flat_map(|x| (0..H).map(move |y| (x, y)))`). -/
def gridL (W H : ℕ) : List (ℕ × ℕ) :=
  (List.range W).flatMap fun x => (List.range H).map fun y => (x, y)

/-- The sites drawn from the ambient `thread_rng` stream
(`(0..NUM_POINTS).map(|_| Point { x: rng.gen(), y: rng.gen() })`): the
generator is modelled as a stream of uniform draws in `[0,1)`, and site `k`
consumes stream values `2k` (its x) and `2k + 1` (its y). -/
def genSites (n : ℕ) (rng : ℕ → ℝ) : List Point :=
  (List.range n).map fun k => ⟨rng (2 * k), rng (2 * k + 1)⟩

/-- Pixel `(x, y)` is sampled at position `(x as f32 / SIZE as f32,
y as f32 / SIZE as f32)` in the unit square. -/
noncomputable def pixPoint (size : ℕ) (x y : ℕ) : Point :=
  ⟨(x : ℝ) / (size : ℝ), (y : ℝ) / (size : ℝ)⟩

/-- `points.iter().map(|&p| toroidal_distance(current, p)).min_by(..).unwrap()`:
minimum distance from `c` to any site.  The `unwrap` panic on an empty site
list is unreachable under the `N ≥ 1` precondition and modelled as `0`. -/
noncomputable def minDistTo (sites : List Point) (c : Point) : ℝ :=
  match sites with
  | [] => 0
  | s :: rest =>
    rest.foldl (fun acc p => min acc (toroidal_distance c p)) (toroidal_distance c s)

/-- Per-pixel nearest-site distances in first-pass loop order. -/
noncomputable def distList (size : ℕ) (sites : List Point) : List ℝ :=
  (gridL size size).map fun q => minDistTo sites (pixPoint size q.1 q.2)

/-- First pass of `generate_tileable_voronoi` (lines 80-92): the maximum
over all pixels of the nearest-site distance (`max_by(..).unwrap()`; the
panic on an empty grid is unreachable since `SIZE = 512` and modelled
as `0`). -/
noncomputable def maxDistance (size : ℕ) (sites : List Point) : ℝ :=
  match distList size sites with
  | [] => 0
  | v :: rest => rest.foldl max v

/-- Second pass of `generate_tileable_voronoi` (lines 95-113): red channel
value `255 - (((1.0 - min_distance / max_distance) * 255.0) as u8)`.  The
`as u8` cast truncates toward zero and saturates.  When `max_distance = 0`,
every nearest-site distance is also `0` and the Rust code computes
`0.0 / 0.0 = NaN`; then `(1 - NaN) * 255 = NaN` and `NaN as u8 = 0`, so the
stored red value is `255`, which is the first branch below. -/
noncomputable def voronoiRed (size : ℕ) (sites : List Point) (x y : ℕ) : ℕ :=
  let m := maxDistance size sites
  let d := minDistTo sites (pixPoint size x y)
  if m = 0 then 255
  else 255 - satU8 ⌊(1 - d / m) * 255⌋

/-- `fn generate_tileable_voronoi` (lines 73-114), as a function of the
ambient `thread_rng` stream it draws its sites from. -/
noncomputable def generate_tileable_voronoi (size numPoints : ℕ) (rng : ℕ → ℝ) : Img :=
  let sites := genSites numPoints rng
  fun x y => ⟨voronoiRed size sites x y, 0, 0⟩

/-- The inclusive integer range `a..=b` as a list (empty when `b < a`,
exactly as Rust's `for i in a..=b`). -/
def intRange (a b : ℤ) : List ℤ :=
  (List.range (b + 1 - a).toNat).map fun k : ℕ => a + (k : ℤ)

/-- One sample of `directional_blur`'s inner loop (lines 169-177): offset
`(round(i * cos θ), round(i * sin θ))` applied to `(x, y)` and wrapped with
`rem_euclid` (true, non-negative modulo), then the red channel of `img`
there. -/
noncomputable def blurSample (W H : ℕ) (img : Img) (x y : ℕ) (θ : ℝ) (i : ℤ) : ℝ :=
  let dx := rRound ((i : ℝ) * Real.cos θ)
  let dy := rRound ((i : ℝ) * Real.sin θ)
  let sx := ((x : ℤ) + dx).emod (W : ℤ)
  let sy := ((y : ℤ) + dy).emod (H : ℤ)
  ((img sx.toNat sy.toNat).red : ℝ)

/-- The `(sum_red, count)` accumulator loop of `directional_blur`
(lines 165-179): both start at `0.0` and the loop ranges over
`-blur_radius..=blur_radius`. -/
noncomputable def blurAcc (W H : ℕ) (img : Img) (x y : ℕ) (θ : ℝ) (r : ℤ) : ℝ × ℝ :=
  (intRange (-r) r).foldl
    (fun acc i => (acc.1 + blurSample W H img x y θ i, acc.2 + 1)) (0, 0)

/-- `fn directional_blur` (lines 154-191).  The angle is
`direction_channel[x,y][0] / 255 * 360` degrees, converted by
`to_radians()` to `· * (π / 180)`.  The output red channel is
`(sum_red / count).round() as u8`.  When `blur_radius < 0` the loop never
runs and Rust computes `0.0 / 0.0 = NaN`, whose `round()` is `NaN` and
whose `as u8` cast is `0`; the real-division convention `0 / 0 = 0` used
here yields the same stored value `0`, so no separate branch is needed. -/
noncomputable def directional_blur (W H : ℕ) (img dir : Img) (r : ℤ) : Img :=
  fun x y =>
    let θ := (((dir x y).red : ℝ) / 255 * 360) * (Real.pi / 180)
    let acc := blurAcc W H img x y θ r
    ⟨satU8 (rRound (acc.1 / acc.2)), 0, 0⟩

/-- The octave loop of `generate_perlin_noise` (lines 232-246), with state
`(noise_value, amplitude, frequency, max_value)` starting at
`(0, 1, 1, 0)`.  Per octave: `noise_value += noise(x/SIZE * frequency,
y/SIZE * frequency) * amplitude`, then `max_value += amplitude`, then
`amplitude *= persistence` and `frequency *= lacunarity`. -/
noncomputable def perlinLoop (noiseFn : ℝ → ℝ → ℝ) (size : ℕ) (per lac : ℝ)
    (x y : ℕ) (octaves : ℕ) : ℝ × ℝ × ℝ × ℝ :=
  (List.range octaves).foldl
    (fun st _ =>
      (st.1 + noiseFn ((x : ℝ) / (size : ℝ) * st.2.2.1) ((y : ℝ) / (size : ℝ) * st.2.2.1) * st.2.1,
       st.2.1 * per, st.2.2.1 * lac, st.2.2.2 + st.2.1))
    (0, 1, 1, 0)

/-- Per-pixel intensity of `generate_perlin_noise` (lines 248-250):
`(((noise_value / max_value + 1.0) / 2.0) * 255.0) as u8` — the cast
truncates toward zero and saturates. -/
noncomputable def perlinRed (noiseFn : ℝ → ℝ → ℝ) (size : ℕ) (per lac : ℝ)
    (octaves : ℕ) (x y : ℕ) : ℕ :=
  let st := perlinLoop noiseFn size per lac x y octaves
  let result := (st.1 / st.2.2.2 + 1) / 2
  satU8 ⌊result * 255⌋

/-- `fn generate_perlin_noise` (lines 225-254), parametrized by the noise
primitive.  The Rust code uses the external crate's `Perlin::new(0)` — a
pure, deterministic gradient-noise function whose seed is the hard-coded
constant `0` — passed here as `noiseFn`; the other constants are
`octaves = 6`, `persistence = 0.5`, `lacunarity = 2.0`. -/
noncomputable def generate_perlin_noise (noiseFn : ℝ → ℝ → ℝ) : Img :=
  fun x y => ⟨perlinRed noiseFn SIZE (1 / 2) 2 6 x y, 0, 0⟩

/-- The red channel values of the `W × H` grid of an image, in grid order
(used by `normalize_image`'s scan; only the min and max of this list are
consumed, so the exact iteration order is immaterial). -/
def redList (W H : ℕ) (img : Img) : List ℕ :=
  (gridL W H).map fun q => (img q.1 q.2).red

/-- `normalize_image`'s scan for the minimum value, with the sentinel
initializer `let mut min_value = 255`. -/
def minRed (W H : ℕ) (img : Img) : ℕ := (redList W H img).foldl min 255

/-- `normalize_image`'s scan for the maximum value, with the sentinel
initializer `let mut max_value = 0`. -/
def maxRed (W H : ℕ) (img : Img) : ℕ := (redList W H img).foldl max 0

/-- The per-pixel rescale of `normalize_image` (lines 300-308): the value
`(pixel[0] - min) / (max - min) * 255.0` when `max_value > min_value`,
otherwise the raw value; both branches then go through `.round() as u8`.
For a non-negative argument Rust's round-half-away-from-zero agrees with
`round : ℚ → ℤ` (round half up), and for a negative argument both land on
`0` after the saturating cast, so `satU8 (round ·)` models
`.round() as u8` exactly. -/
def nval (mn mx v : ℕ) : ℕ :=
  satU8 (round (if mn < mx then ((v : ℚ) - (mn : ℚ)) / ((mx : ℚ) - (mn : ℚ)) * 255 else (v : ℚ)))

/-- `fn normalize_image` (lines 287-309): scan for the min and max red
values, then rescale each pixel. -/
def normalize_image (W H : ℕ) (img : Img) : Img :=
  fun x y => ⟨nval (minRed W H img) (maxRed W H img) ((img x y).red), 0, 0⟩

/-- The refinement loop of `main` (lines 330-338): starting from a copy of
the Voronoi texture, round `i` applies `directional_blur` with the fixed
direction image `dir` and radius `base * 2 ^ i`, then `normalize_image`. -/
noncomputable def refineLoop (W H : ℕ) (dir : Img) (base : ℤ) (img : Img) : ℕ → Img
  | 0 => img
  | n + 1 =>
    normalize_image W H (directional_blur W H (refineLoop W H dir base img n) dir (base * 2 ^ n))

/-- The three fields produced by `fn main` (lines 320-342): the Voronoi
texture, the Perlin texture, and the final blurred texture after the four
refinement rounds, as a function of the ambient `thread_rng` stream and of
the external noise primitive. -/
noncomputable def mainRun (noiseFn : ℝ → ℝ → ℝ) (rng : ℕ → ℝ) : Img × Img × Img :=
  let voronoi := generate_tileable_voronoi SIZE NUM_POINTS rng
  let perlin := generate_perlin_noise noiseFn
  let blurred := refineLoop SIZE SIZE voronoi BLUR_RADIUS voronoi 4
  (voronoi, perlin, blurred)

/-! Generic lemmas about the `min`/`max` accumulator folds used by the
first Voronoi pass and by `normalize_image`'s scan. -/

theorem foldl_min_le_init {α : Type*} [LinearOrder α] (l : List α) (a : α) :
    l.foldl min a ≤ a := by
  induction l generalizing a with
  | nil => exact le_refl a
  | cons b t ih => exact le_trans (ih (min a b)) (min_le_left a b)

theorem foldl_min_le_mem {α : Type*} [LinearOrder α] {l : List α} {v : α}
    (h : v ∈ l) (a : α) : l.foldl min a ≤ v := by
  induction l generalizing a with
  | nil => cases h
  | cons b t ih =>
    rcases List.mem_cons.mp h with rfl | hv
    · exact le_trans (foldl_min_le_init t (min a v)) (min_le_right a v)
    · exact ih hv (min a b)

theorem foldl_min_choice {α : Type*} [LinearOrder α] (l : List α) (a : α) :
    l.foldl min a = a ∨ l.foldl min a ∈ l := by
  induction l generalizing a with
  | nil => exact Or.inl rfl
  | cons b t ih =>
    rcases ih (min a b) with h | h
    · rcases le_total a b with hab | hab
      · rw [List.foldl_cons, h, min_eq_left hab]; exact Or.inl rfl
      · rw [List.foldl_cons, h, min_eq_right hab]; exact Or.inr (List.mem_cons_self b t)
    · exact Or.inr (List.mem_cons_of_mem b h)

theorem le_foldl_max_init {α : Type*} [LinearOrder α] (l : List α) (a : α) :
    a ≤ l.foldl max a := by
  induction l generalizing a with
  | nil => exact le_refl a
  | cons b t ih => exact le_trans (le_max_left a b) (ih (max a b))

theorem mem_le_foldl_max {α : Type*} [LinearOrder α] {l : List α} {v : α}
    (h : v ∈ l) (a : α) : v ≤ l.foldl max a := by
  induction l generalizing a with
  | nil => cases h
  | cons b t ih =>
    rcases List.mem_cons.mp h with rfl | hv
    · exact le_trans (le_max_right a v) (le_foldl_max_init t (max a v))
    · exact ih hv (max a b)

theorem foldl_max_choice {α : Type*} [LinearOrder α] (l : List α) (a : α) :
    l.foldl max a = a ∨ l.foldl max a ∈ l := by
  induction l generalizing a with
  | nil => exact Or.inl rfl
  | cons b t ih =>
    rcases ih (max a b) with h | h
    · rcases le_total a b with hab | hab
      · rw [List.foldl_cons, h, max_eq_right hab]; exact Or.inr (List.mem_cons_self b t)
      · rw [List.foldl_cons, h, max_eq_left hab]; exact Or.inl rfl
    · exact Or.inr (List.mem_cons_of_mem b h)

theorem mem_gridL {W H x y : ℕ} : (x, y) ∈ gridL W H ↔ x < W ∧ y < H := by
  simp only [gridL, List.mem_flatMap, List.mem_map, List.mem_range, Prod.mk.injEq]
  constructor
  · rintro ⟨a, ha, b, hb, rfl, rfl⟩; exact ⟨ha, hb⟩
  · rintro ⟨hx, hy⟩; exact ⟨x, hx, y, hy, rfl, rfl⟩

/-- C6: for points with coordinates in `[0,1)`, `toroidal_distance` returns
`sqrt (dx ^ 2 + dy ^ 2)` where each axis term is `min d (1 - d)` for
`d = |p1.c - p2.c|`, and the result lies in `[0, sqrt (1/2)]`. -/
theorem toroidal_distance_spec (p1 p2 : Point)
    (h1x : 0 ≤ p1.x) (h1x' : p1.x < 1) (h1y : 0 ≤ p1.y) (h1y' : p1.y < 1)
    (h2x : 0 ≤ p2.x) (h2x' : p2.x < 1) (h2y : 0 ≤ p2.y) (h2y' : p2.y < 1) :
    toroidal_distance p1 p2 =
      Real.sqrt (min |p1.x - p2.x| (1 - |p1.x - p2.x|) ^ 2 +
                 min |p1.y - p2.y| (1 - |p1.y - p2.y|) ^ 2) ∧
    0 ≤ toroidal_distance p1 p2 ∧
    toroidal_distance p1 p2 ≤ Real.sqrt (1 / 2) := by
  have wrap_bounds : ∀ a b : ℝ, 0 ≤ a → a < 1 → 0 ≤ b → b < 1 →
      0 ≤ min |a - b| (1 - |a - b|) ∧ min |a - b| (1 - |a - b|) ≤ 1 / 2 := by
    intro a b ha ha' hb hb'
    have habs : |a - b| < 1 := by
      rw [abs_lt]; constructor <;> linarith
    have habs0 : 0 ≤ |a - b| := abs_nonneg _
    constructor
    · exact le_min habs0 (by linarith)
    · rcases le_total |a - b| (1 / 2) with h | h
      · exact le_trans (min_le_left _ _) h
      · exact le_trans (min_le_right _ _) (by linarith)

  obtain ⟨hwx0, hwx⟩ := wrap_bounds p1.x p2.x h1x h1x' h2x h2x'
  obtain ⟨hwy0, hwy⟩ := wrap_bounds p1.y p2.y h1y h1y' h2y h2y'
  refine ⟨?_, Real.sqrt_nonneg _, ?_⟩
  · unfold toroidal_distance
    rw [pow_two, pow_two]
  · unfold toroidal_distance
    apply Real.sqrt_le_sqrt
    nlinarith

/-- Witness for `toroidal_distance_spec` on concrete points. -/
theorem toroidal_distance_spec_witness :
    (0 ≤ (Point.mk 0 0).x ∧ (Point.mk 0 0).x < 1 ∧ 0 ≤ (Point.mk 0 0).y ∧
     (Point.mk 0 0).y < 1 ∧ 0 ≤ (Point.mk (1/2) (1/2)).x ∧
     (Point.mk (1/2) (1/2)).x < 1 ∧ 0 ≤ (Point.mk (1/2) (1/2)).y ∧
     (Point.mk (1/2) (1/2)).y < 1) ∧
    (0 ≤ toroidal_distance (Point.mk 0 0) (Point.mk (1/2) (1/2)) ∧
     toroidal_distance (Point.mk 0 0) (Point.mk (1/2) (1/2)) ≤ Real.sqrt (1 / 2)) :=
  ⟨by norm_num,
   ((toroidal_distance_spec (Point.mk 0 0) (Point.mk (1/2) (1/2))
      (by norm_num) (by norm_num) (by norm_num) (by norm_num)
      (by norm_num) (by norm_num) (by norm_num) (by norm_num)).2)⟩

/-- C10: every image produced by any of the four core operations has green
and blue channels equal to `0` at every pixel; all intensity data lives in
the red channel. -/
theorem all_ops_red_only (size numPoints W H : ℕ) (rng : ℕ → ℝ)
    (noiseFn : ℝ → ℝ → ℝ) (img dir : Img) (r : ℤ) (x y : ℕ) :
    ((generate_tileable_voronoi size numPoints rng x y).green = 0 ∧
     (generate_tileable_voronoi size numPoints rng x y).blue = 0) ∧
    ((generate_perlin_noise noiseFn x y).green = 0 ∧
     (generate_perlin_noise noiseFn x y).blue = 0) ∧
    ((directional_blur W H img dir r x y).green = 0 ∧
     (directional_blur W H img dir r x y).blue = 0) ∧
    ((normalize_image W H img x y).green = 0 ∧
     (normalize_image W H img x y).blue = 0) :=
  ⟨⟨rfl, rfl⟩, ⟨rfl, rfl⟩, ⟨rfl, rfl⟩, ⟨rfl, rfl⟩⟩

/-- C5: the refinement pipeline of `main` performs exactly 4 rounds; round
`k` blurs the current field with radius `3 * 2 ^ k` using the original
Voronoi field as direction in every round, then normalizes, and the last
round's field is the final output. -/
theorem refinement_pipeline_unrolled (noiseFn : ℝ → ℝ → ℝ) (rng : ℕ → ℝ) :
    (mainRun noiseFn rng).2.2 =
      (let V := generate_tileable_voronoi SIZE NUM_POINTS rng
       normalize_image SIZE SIZE (directional_blur SIZE SIZE
        (normalize_image SIZE SIZE (directional_blur SIZE SIZE
         (normalize_image SIZE SIZE (directional_blur SIZE SIZE
          (normalize_image SIZE SIZE (directional_blur SIZE SIZE V V 3))
          V 6)) V 12)) V 24)) := by
  show refineLoop SIZE SIZE _ BLUR_RADIUS _ 4 = _
  simp only [refineLoop, BLUR_RADIUS]
  norm_num

/-! The blur accumulator loop: characterization of the `(sum, count)`
pair and of the loop's trip count. -/

theorem intRange_length (a b : ℤ) : (intRange a b).length = (b + 1 - a).toNat := by
  unfold intRange
  rw [List.length_map, List.length_range]

theorem foldl_sum_count {β : Type*} (f : β → ℝ) (l : List β) (s c : ℝ) :
    l.foldl (fun acc i => (acc.1 + f i, acc.2 + 1)) (s, c) =
      (s + (l.map f).sum, c + l.length) := by
  induction l generalizing s c with
  | nil => simp
  | cons b t ih =>
    simp only [List.foldl_cons, List.map_cons, List.sum_cons, List.length_cons, ih,
      Prod.mk.injEq]
    constructor
    · ring
    · push_cast
      ring

theorem blurAcc_eq (W H : ℕ) (img : Img) (x y : ℕ) (θ : ℝ) (r : ℤ) :
    blurAcc W H img x y θ r =
      (((intRange (-r) r).map (blurSample W H img x y θ)).sum,
       (((2 * r + 1).toNat : ℕ) : ℝ)) := by
  unfold blurAcc
  rw [foldl_sum_count]
  have h2 : r + 1 - -r = 2 * r + 1 := by ring
  rw [intRange_length, h2, zero_add, zero_add]

/-- C9: the averaging division of `directional_blur` never divides by zero
when `blur_radius ≥ 0` — the offset loop runs `2 * blur_radius + 1 ≥ 1`
times so `count ≥ 1` at every pixel — while for `blur_radius < 0` the loop
body never runs, `count` stays `0`, and the resulting `0.0 / 0.0` (IEEE:
`NaN`, cast by `as u8` to `0`) makes the output field all-zero. -/
theorem blur_count_load_bearing (W H : ℕ) (img dir : Img) (θ : ℝ) (r : ℤ) (x y : ℕ) :
    (0 ≤ r →
      (blurAcc W H img x y θ r).2 = 2 * (r : ℝ) + 1 ∧
      (1 : ℝ) ≤ (blurAcc W H img x y θ r).2) ∧
    (r < 0 →
      (blurAcc W H img x y θ r).2 = 0 ∧
      directional_blur W H img dir r x y = ⟨0, 0, 0⟩) := by
  constructor
  · intro hr
    have h1 : (((2 * r + 1).toNat : ℕ) : ℝ) = 2 * (r : ℝ) + 1 := by
      have h := Int.toNat_of_nonneg (show (0 : ℤ) ≤ 2 * r + 1 by omega)
      exact_mod_cast congrArg (fun z : ℤ => (z : ℝ)) h
    have hr' : (0 : ℝ) ≤ (r : ℝ) := by exact_mod_cast hr
    rw [blurAcc_eq, h1]
    refine ⟨rfl, ?_⟩
    show (1 : ℝ) ≤ 2 * (r : ℝ) + 1
    linarith
  · intro hr
    have hempty : intRange (-r) r = [] := by
      unfold intRange
      have h0 : (r + 1 - -r).toNat = 0 := by omega
      rw [h0]
      rfl
    have hacc : ∀ θ' : ℝ, blurAcc W H img x y θ' r = (0, 0) := by
      intro θ'
      unfold blurAcc
      rw [hempty]
      rfl
    refine ⟨by rw [hacc], ?_⟩
    show (⟨satU8 (rRound ((blurAcc W H img x y _ r).1 / (blurAcc W H img x y _ r).2)), 0, 0⟩ : Pix)
      = ⟨0, 0, 0⟩
    rw [hacc]
    norm_num [rRound, satU8]

theorem satU8_eq (n : ℤ) (h0 : 0 ≤ n) (h255 : n ≤ 255) : satU8 n = n.toNat := by
  unfold satU8
  rw [max_eq_right h0, min_eq_right h255]

theorem list_range_map_sum (f : ℕ → ℝ) (n : ℕ) :
    ((List.range n).map f).sum = ∑ k in Finset.range n, f k := by
  induction n with
  | zero => simp
  | succ m ih =>
    rw [List.range_succ, List.map_append, List.sum_append, Finset.sum_range_succ, ih]
    simp

theorem sum_intRange (f : ℤ → ℝ) (a b : ℤ) :
    ((intRange a b).map f).sum = ∑ i in Finset.Icc a b, f i := by
  rw [Int.Icc_eq_finset_map, Finset.sum_map]
  unfold intRange
  rw [List.map_map, list_range_map_sum]
  apply Finset.sum_congr rfl
  intro k _
  simp [Nat.castEmbedding, addLeftEmbedding]

/-- C4: for radius `r ≥ 0`, `directional_blur` maps the direction field's
red intensity linearly from `[0,255]` to an angle (in degrees, converted to
radians), samples the source at `((x + round(i cos θ)) mod W,
(y + round(i sin θ)) mod H)` with true (non-negative) modulo for the `2r+1`
integer offsets `i ∈ [-r, r]`, and outputs `round(sum / (2r+1))`. -/
theorem directional_blur_spec (W H : ℕ) (img dir : Img) (r : ℤ) (x y : ℕ) (θ : ℝ)
    (hW : 0 < W) (hH : 0 < H) (hr : 0 ≤ r)
    (hθ : θ = ((dir x y).red : ℝ) / 255 * 360 * (Real.pi / 180))
    (hwf : ∀ a b : ℕ, (img a b).red ≤ 255) :
    (directional_blur W H img dir r x y).red =
      (rRound ((∑ i in Finset.Icc (-r) r,
          ((img (((x : ℤ) + rRound ((i : ℝ) * Real.cos θ)).emod (W : ℤ)).toNat
                (((y : ℤ) + rRound ((i : ℝ) * Real.sin θ)).emod (H : ℤ)).toNat).red : ℝ)) /
        (2 * (r : ℝ) + 1))).toNat := by
  clear hW hH
  subst hθ
  set θ := ((dir x y).red : ℝ) / 255 * 360 * (Real.pi / 180) with hθdef
  have hsample : ∀ i : ℤ, blurSample W H img x y θ i =
      ((img (((x : ℤ) + rRound ((i : ℝ) * Real.cos θ)).emod (W : ℤ)).toNat
            (((y : ℤ) + rRound ((i : ℝ) * Real.sin θ)).emod (H : ℤ)).toNat).red : ℝ) := by
    intro i; rfl
  have hcast : (((2 * r + 1).toNat : ℕ) : ℝ) = 2 * (r : ℝ) + 1 := by
    have h := Int.toNat_of_nonneg (show (0 : ℤ) ≤ 2 * r + 1 by omega)
    exact_mod_cast congrArg (fun z : ℤ => (z : ℝ)) h
  have hpos : (0 : ℝ) < 2 * (r : ℝ) + 1 := by
    have : (0 : ℝ) ≤ (r : ℝ) := by exact_mod_cast hr
    linarith
  show satU8 (rRound ((blurAcc W H img x y θ r).1 / (blurAcc W H img x y θ r).2)) = _
  rw [blurAcc_eq, sum_intRange, hcast]
  set S := ∑ i in Finset.Icc (-r) r, blurSample W H img x y θ i with hS
  have hS0 : 0 ≤ S := Finset.sum_nonneg fun i _ => by
    rw [hsample]; positivity
  have hSle : S ≤ (2 * (r : ℝ) + 1) * 255 := by
    have hbound := Finset.sum_le_card_nsmul (Finset.Icc (-r) r)
      (blurSample W H img x y θ) 255 (fun i _ => by
        rw [hsample]
        exact_mod_cast hwf _ _)
    have hcard : ((Finset.Icc (-r) r).card : ℝ) = 2 * (r : ℝ) + 1 := by
      rw [Int.card_Icc, show r + 1 - -r = 2 * r + 1 by ring]
      exact hcast
    rw [nsmul_eq_mul, hcard] at hbound
    linarith
  have hmean0 : 0 ≤ S / (2 * (r : ℝ) + 1) := div_nonneg hS0 (le_of_lt hpos)
  have hmean255 : S / (2 * (r : ℝ) + 1) ≤ 255 := by
    rw [div_le_iff₀ hpos]
    linarith
  have hround : rRound (S / (2 * (r : ℝ) + 1)) = ⌊S / (2 * (r : ℝ) + 1) + 1 / 2⌋ := by
    unfold rRound
    rw [if_pos hmean0]
  have h0 : 0 ≤ rRound (S / (2 * (r : ℝ) + 1)) := by
    rw [hround]
    exact Int.floor_nonneg.mpr (by linarith)
  have h255 : rRound (S / (2 * (r : ℝ) + 1)) ≤ 255 := by
    rw [hround]
    have hfl : (⌊(255 + 1 / 2 : ℝ)⌋ : ℤ) = 255 :=
      Int.floor_eq_iff.mpr ⟨by norm_num, by norm_num⟩
    calc ⌊S / (2 * (r : ℝ) + 1) + 1 / 2⌋ ≤ ⌊(255 + 1 / 2 : ℝ)⌋ :=
          Int.floor_le_floor (by linarith)
      _ = 255 := hfl
  rw [satU8_eq _ h0 h255, hS,
    Finset.sum_congr rfl (fun i (_ : i ∈ Finset.Icc (-r) r) => hsample i)]

/-- A constant all-gray source image used by concrete witnesses. -/
def constImg5 : Img := fun _ _ => ⟨5, 0, 0⟩

/-- A constant all-black direction image used by concrete witnesses. -/
def constImg0 : Img := fun _ _ => ⟨0, 0, 0⟩

/-- Witness for `directional_blur_spec` at a concrete configuration. -/
theorem directional_blur_spec_witness :
    (directional_blur 1 1 constImg5 constImg0 0 0 0).red =
      (rRound ((∑ i in Finset.Icc (-(0 : ℤ)) 0,
          ((constImg5 (((0 : ℤ) + rRound ((i : ℝ) * Real.cos 0)).emod (1 : ℤ)).toNat
                (((0 : ℤ) + rRound ((i : ℝ) * Real.sin 0)).emod (1 : ℤ)).toNat).red : ℝ)) /
        (2 * ((0 : ℤ) : ℝ) + 1))).toNat := by
  have hθ : (0 : ℝ) = ((constImg0 0 0).red : ℝ) / 255 * 360 * (Real.pi / 180) := by
    show (0 : ℝ) = ((0 : ℕ) : ℝ) / 255 * 360 * (Real.pi / 180)
    norm_num
  exact directional_blur_spec 1 1 constImg5 constImg0 0 0 0 0
    Nat.one_pos Nat.one_pos (le_refl 0) hθ (fun a b => by norm_num [constImg5])

/-! Facts about `normalize_image` leading to the idempotence claim. -/

theorem satU8_le (n : ℤ) : satU8 n ≤ 255 := by
  unfold satU8
  exact Int.toNat_le.mpr (min_le_left _ _)

theorem nval_le (mn mx v : ℕ) : nval mn mx v ≤ 255 := satU8_le _

theorem nval_flat {mn mx : ℕ} (h : ¬ mn < mx) {v : ℕ} (hv : v ≤ 255) :
    nval mn mx v = v := by
  unfold nval
  rw [if_neg h, round_natCast, satU8_eq _ (by positivity) (by exact_mod_cast hv),
    Int.toNat_natCast]

theorem nval_at_min {mn mx : ℕ} (h : mn < mx) : nval mn mx mn = 0 := by
  unfold nval
  rw [if_pos h, sub_self, zero_div, zero_mul, round_zero]
  rfl

theorem nval_at_max {mn mx : ℕ} (h : mn < mx) : nval mn mx mx = 255 := by
  unfold nval
  have hd : (mx : ℚ) - (mn : ℚ) ≠ 0 := by
    have : (mn : ℚ) < (mx : ℚ) := by exact_mod_cast h
    linarith
  rw [if_pos h, div_self hd, one_mul,
    show (255 : ℚ) = ((255 : ℕ) : ℚ) by norm_num, round_natCast]
  rfl

theorem nval_of_between {mn mx v : ℕ} (h : mn < mx) (h1 : mn ≤ v) (h2 : v ≤ mx) :
    nval mn mx v = (round (((v : ℚ) - (mn : ℚ)) / ((mx : ℚ) - (mn : ℚ)) * 255)).toNat := by
  unfold nval
  rw [if_pos h]
  set q : ℚ := ((v : ℚ) - (mn : ℚ)) / ((mx : ℚ) - (mn : ℚ)) * 255 with hq
  have hd : (0 : ℚ) < (mx : ℚ) - (mn : ℚ) := by
    have : (mn : ℚ) < (mx : ℚ) := by exact_mod_cast h
    linarith
  have hq0 : 0 ≤ q := by
    apply mul_nonneg _ (by norm_num)
    apply div_nonneg _ (le_of_lt hd)
    have : (mn : ℚ) ≤ (v : ℚ) := by exact_mod_cast h1
    linarith
  have hq255 : q ≤ 255 := by
    rw [hq]
    have hle : ((v : ℚ) - (mn : ℚ)) / ((mx : ℚ) - (mn : ℚ)) ≤ 1 := by
      rw [div_le_one hd]
      have : (v : ℚ) ≤ (mx : ℚ) := by exact_mod_cast h2
      linarith
    nlinarith
  apply satU8_eq
  · rw [round_eq]
    exact Int.floor_nonneg.mpr (by linarith)
  · rw [round_eq]
    have hfl : (⌊(255 + 1 / 2 : ℚ)⌋ : ℤ) = 255 :=
      Int.floor_eq_iff.mpr ⟨by norm_num, by norm_num⟩
    calc ⌊q + 1 / 2⌋ ≤ ⌊(255 + 1 / 2 : ℚ)⌋ := Int.floor_le_floor (by linarith)
      _ = 255 := hfl

theorem nval_full_range {w : ℕ} (hw : w ≤ 255) : nval 0 255 w = w := by
  unfold nval
  rw [if_pos (by norm_num : (0 : ℕ) < 255)]
  have hsimp : ((w : ℚ) - ((0 : ℕ) : ℚ)) / (((255 : ℕ) : ℚ) - ((0 : ℕ) : ℚ)) * 255 = (w : ℚ) := by
    push_cast
    field_simp
  rw [hsimp, round_natCast, satU8_eq _ (by positivity) (by exact_mod_cast hw),
    Int.toNat_natCast]

theorem red_mem_redList {W H x y : ℕ} (hx : x < W) (hy : y < H) (img : Img) :
    (img x y).red ∈ redList W H img := by
  unfold redList
  exact List.mem_map_of_mem (fun q : ℕ × ℕ => (img q.1 q.2).red) (mem_gridL.mpr ⟨hx, hy⟩)

theorem redList_forall {W H : ℕ} {img : Img} {P : ℕ → Prop}
    (h : ∀ x y : ℕ, x < W → y < H → P ((img x y).red)) :
    ∀ v ∈ redList W H img, P v := by
  intro v hv
  unfold redList at hv
  obtain ⟨⟨qx, qy⟩, hq, rfl⟩ := List.mem_map.mp hv
  obtain ⟨h1, h2⟩ := mem_gridL.mp hq
  exact h qx qy h1 h2

theorem redList_normalize (W H : ℕ) (img : Img) :
    redList W H (normalize_image W H img) =
      (redList W H img).map (nval (minRed W H img) (maxRed W H img)) := by
  unfold redList normalize_image
  rw [List.map_map]
  rfl

/-- C7: `normalize_image` is idempotent — applying it twice yields the same
field as applying it once (after one pass a non-flat field spans `[0,255]`
and the second pass is the identity; a flat field is returned unchanged
both times). -/
theorem normalize_image_idempotent (W H : ℕ) (img : Img)
    (hwf : ∀ a b : ℕ, a < W → b < H → (img a b).red ≤ 255)
    (x y : ℕ) (hx : x < W) (hy : y < H) :
    normalize_image W H (normalize_image W H img) x y = normalize_image W H img x y := by
  have hWF : ∀ v ∈ redList W H img, v ≤ 255 := redList_forall hwf
  have hv0 : (img x y).red ∈ redList W H img := red_mem_redList hx hy img
  have hv255 : (img x y).red ≤ 255 := hwf x y hx hy
  set L := redList W H img with hL
  set mn := minRed W H img with hmn
  set mx := maxRed W H img with hmx
  have hmn_le : ∀ v ∈ L, mn ≤ v := fun v hv => foldl_min_le_mem hv 255
  have hle_mx : ∀ v ∈ L, v ≤ mx := fun v hv => mem_le_foldl_max hv 0
  show (⟨nval (minRed W H (normalize_image W H img)) (maxRed W H (normalize_image W H img))
         ((normalize_image W H img x y).red), 0, 0⟩ : Pix) =
       ⟨nval mn mx ((img x y).red), 0, 0⟩
  have hred1 : (normalize_image W H img x y).red = nval mn mx ((img x y).red) := rfl
  by_cases hflat : mn < mx
  · -- non-flat: the first pass spans the full range, the second is identity
    have hmnL : mn ∈ L := by
      rcases foldl_min_choice L 255 with h | h
      · have hmn255 : mn = 255 := h
        have h1 : mn ≤ (img x y).red := hmn_le _ hv0
        have h2 : (img x y).red = mn := le_antisymm (by rw [hmn255]; exact hv255) h1
        rw [← h2]
        exact hv0
      · exact h
    have hmxL : mx ∈ L := by
      rcases foldl_max_choice L 0 with h | h
      · have hmx0 : mx = 0 := h
        have h1 : (img x y).red ≤ mx := hle_mx _ hv0
        have h2 : (img x y).red = mx := le_antisymm h1 (by rw [hmx0]; exact Nat.zero_le _)
        rw [← h2]
        exact hv0
      · exact h
    have hL2 : redList W H (normalize_image W H img) = L.map (nval mn mx) := by
      rw [redList_normalize]
    have hmn2 : minRed W H (normalize_image W H img) = 0 := by
      have h0mem : (0 : ℕ) ∈ L.map (nval mn mx) := by
        rw [← nval_at_min hflat]
        exact List.mem_map_of_mem _ hmnL
      have : minRed W H (normalize_image W H img) ≤ 0 := by
        unfold minRed
        rw [hL2]
        exact foldl_min_le_mem h0mem 255
      omega
    have hmx2 : maxRed W H (normalize_image W H img) = 255 := by
      have h255mem : (255 : ℕ) ∈ L.map (nval mn mx) := by
        rw [← nval_at_max hflat]
        exact List.mem_map_of_mem _ hmxL
      have hge : 255 ≤ maxRed W H (normalize_image W H img) := by
        unfold maxRed
        rw [hL2]
        exact mem_le_foldl_max h255mem 0
      have hle : maxRed W H (normalize_image W H img) ≤ 255 := by
        unfold maxRed
        rw [hL2]
        rcases foldl_max_choice (L.map (nval mn mx)) 0 with h | h
        · rw [h]; omega
        · obtain ⟨w, hw, heq⟩ := List.mem_map.mp h
          rw [← heq]
          exact nval_le mn mx w
      omega
    rw [hmn2, hmx2, hred1, nval_full_range (nval_le mn mx _)]
  · -- flat: both passes return the field unchanged
    have hID : ∀ v ∈ L, nval mn mx v = v := fun v hv => nval_flat hflat (hWF v hv)
    have hL2 : redList W H (normalize_image W H img) = L := by
      rw [redList_normalize]
      conv_rhs => rw [← List.map_id L]
      exact List.map_congr_left hID
    have hmn2 : minRed W H (normalize_image W H img) = mn := by
      unfold minRed
      rw [hL2]
      rfl
    have hmx2 : maxRed W H (normalize_image W H img) = mx := by
      unfold maxRed
      rw [hL2]
      rfl
    rw [hmn2, hmx2, hred1, nval_flat hflat hv255, nval_flat hflat hv255]

/-- Witness for `normalize_image_idempotent` on a concrete 1×1 image. -/
theorem normalize_image_idempotent_witness :
    normalize_image 1 1 (normalize_image 1 1 constImg5) 0 0 =
      normalize_image 1 1 constImg5 0 0 :=
  normalize_image_idempotent 1 1 constImg5 (fun a b _ _ => by norm_num [constImg5])
    0 0 Nat.one_pos Nat.one_pos

/-! The fractal-noise octave loop: closed form and the quantization of the
final value. -/

theorem perlinLoop_closed (noiseFn : ℝ → ℝ → ℝ) (size : ℕ) (per lac : ℝ)
    (x y : ℕ) (n : ℕ) :
    perlinLoop noiseFn size per lac x y n =
      (∑ k in Finset.range n,
         noiseFn ((x : ℝ) / (size : ℝ) * lac ^ k) ((y : ℝ) / (size : ℝ) * lac ^ k) * per ^ k,
       per ^ n, lac ^ n, ∑ k in Finset.range n, per ^ k) := by
  induction n with
  | zero => simp [perlinLoop]
  | succ m ih =>
    unfold perlinLoop at ih ⊢
    rw [List.range_succ, List.foldl_append, ih]
    simp only [List.foldl_cons, List.foldl_nil, Prod.mk.injEq]
    refine ⟨?_, ?_, ?_, ?_⟩
    · rw [Finset.sum_range_succ]
    · rw [pow_succ]
    · rw [pow_succ]
    · rw [Finset.sum_range_succ]

/-- Amended C8: for every pixel, the fractal noise generator accumulates 6
octaves of `noise(x/SIZE * frequency, y/SIZE * frequency) * amplitude`
with `amplitude *= 1/2` and `frequency *= 2` between octaves and the
amplitudes summed into a normalizer; the final value is
`(value/normalizer + 1) / 2` and the stored intensity is the
truncation (not the rounding) of `result * 255`. -/
theorem perlin_pixel_formula (noiseFn : ℝ → ℝ → ℝ) (x y : ℕ)
    (hnf : ∀ a b : ℝ, |noiseFn a b| ≤ 1) :
    (generate_perlin_noise noiseFn x y).red =
      (⌊((∑ k in Finset.range 6,
            noiseFn ((x : ℝ) / (SIZE : ℝ) * 2 ^ k) ((y : ℝ) / (SIZE : ℝ) * 2 ^ k) *
              (1 / 2 : ℝ) ^ k) /
          (∑ k in Finset.range 6, (1 / 2 : ℝ) ^ k) + 1) / 2 * 255⌋).toNat := by
  show perlinRed noiseFn SIZE (1 / 2) 2 6 x y = _
  unfold perlinRed
  rw [perlinLoop_closed]
  set v : ℝ := ∑ k in Finset.range 6,
    noiseFn ((x : ℝ) / (SIZE : ℝ) * 2 ^ k) ((y : ℝ) / (SIZE : ℝ) * 2 ^ k) * (1 / 2 : ℝ) ^ k
    with hv
  set N : ℝ := ∑ k in Finset.range 6, (1 / 2 : ℝ) ^ k with hN
  have hNval : N = 63 / 32 := by
    rw [hN]
    norm_num [Finset.sum_range_succ]
  have hvabs : |v| ≤ N := by
    rw [hv, hN]
    calc |∑ k in Finset.range 6,
            noiseFn ((x : ℝ) / (SIZE : ℝ) * 2 ^ k) ((y : ℝ) / (SIZE : ℝ) * 2 ^ k) *
              (1 / 2 : ℝ) ^ k|
        ≤ ∑ k in Finset.range 6,
            |noiseFn ((x : ℝ) / (SIZE : ℝ) * 2 ^ k) ((y : ℝ) / (SIZE : ℝ) * 2 ^ k) *
              (1 / 2 : ℝ) ^ k| := Finset.abs_sum_le_sum_abs _ _
      _ ≤ ∑ k in Finset.range 6, (1 / 2 : ℝ) ^ k := by
          apply Finset.sum_le_sum
          intro k _
          rw [abs_mul, abs_of_nonneg (by positivity : (0 : ℝ) ≤ (1 / 2 : ℝ) ^ k)]
          exact mul_le_of_le_one_left (by positivity) (hnf _ _)
  have hNpos : (0 : ℝ) < N := by rw [hNval]; norm_num
  have hlo : -1 ≤ v / N := by
    rw [neg_le, ← neg_div]
    rw [div_le_one hNpos]
    have := abs_le.mp hvabs
    linarith [this.1]
  have hhi : v / N ≤ 1 := by
    rw [div_le_one hNpos]
    exact le_trans (le_abs_self v) hvabs
  set t : ℝ := (v / N + 1) / 2 * 255 with ht
  have ht0 : 0 ≤ t := by rw [ht]; nlinarith
  have ht255 : t ≤ 255 := by rw [ht]; nlinarith
  apply satU8_eq
  · exact Int.floor_nonneg.mpr ht0
  · have hfl : (⌊(255 : ℝ)⌋ : ℤ) = 255 := Int.floor_eq_iff.mpr ⟨by norm_num, by norm_num⟩
    calc ⌊t⌋ ≤ ⌊(255 : ℝ)⌋ := Int.floor_le_floor ht255
      _ = 255 := hfl

/-- The identically-zero noise primitive, used as the concrete noise
instance by the C8 witness and counterexample; the genuine crate Perlin
primitive also evaluates to `0` at the lattice input `(0, 0)`, which is
the only input these concrete statements sample. -/
def zeroNoise : ℝ → ℝ → ℝ := fun _ _ => 0

/-- Witness for `perlin_pixel_formula` at a concrete noise function. -/
theorem perlin_pixel_formula_witness :
    (generate_perlin_noise zeroNoise 0 0).red =
      (⌊((∑ k in Finset.range 6,
            zeroNoise (((0 : ℕ) : ℝ) / (SIZE : ℝ) * 2 ^ k) (((0 : ℕ) : ℝ) / (SIZE : ℝ) * 2 ^ k) *
              (1 / 2 : ℝ) ^ k) /
          (∑ k in Finset.range 6, (1 / 2 : ℝ) ^ k) + 1) / 2 * 255⌋).toNat :=
  perlin_pixel_formula zeroNoise 0 0 (fun a b => by norm_num [zeroNoise])

/-- Counterexample to C8 as frozen: with the zero noise primitive the code
stores `127` at pixel `(0,0)` (truncation of `127.5`), while the claimed
`round(result * 255)` is `128`. -/
theorem perlin_round_claim_false :
    (generate_perlin_noise zeroNoise 0 0).red = 127 ∧
    (rRound (((∑ k in Finset.range 6,
          zeroNoise (((0 : ℕ) : ℝ) / (SIZE : ℝ) * 2 ^ k) (((0 : ℕ) : ℝ) / (SIZE : ℝ) * 2 ^ k) *
            (1 / 2 : ℝ) ^ k) /
        (∑ k in Finset.range 6, (1 / 2 : ℝ) ^ k) + 1) / 2 * 255)).toNat = 128 := by
  have hzero : (∑ k in Finset.range 6,
      zeroNoise (((0 : ℕ) : ℝ) / (SIZE : ℝ) * 2 ^ k) (((0 : ℕ) : ℝ) / (SIZE : ℝ) * 2 ^ k) *
        (1 / 2 : ℝ) ^ k) = 0 := by
    simp [zeroNoise]
  have hNval : (∑ k in Finset.range 6, (1 / 2 : ℝ) ^ k) = 63 / 32 := by
    norm_num [Finset.sum_range_succ]
  constructor
  · show perlinRed zeroNoise SIZE (1 / 2) 2 6 0 0 = 127
    unfold perlinRed
    rw [perlinLoop_closed, hzero, hNval]
    show satU8 ⌊((0 : ℝ) / (63 / 32) + 1) / 2 * 255⌋ = 127
    have harg : ((0 : ℝ) / (63 / 32) + 1) / 2 * 255 = 255 / 2 := by norm_num
    rw [harg]
    have hfl : (⌊(255 / 2 : ℝ)⌋ : ℤ) = 127 := Int.floor_eq_iff.mpr ⟨by norm_num, by norm_num⟩
    rw [hfl]
    rfl
  · rw [hzero, hNval]
    have harg : ((0 : ℝ) / (63 / 32) + 1) / 2 * 255 = 255 / 2 := by norm_num
    rw [harg]
    unfold rRound
    rw [if_pos (by norm_num : (0 : ℝ) ≤ 255 / 2)]
    have hfl : (⌊(255 / 2 + 1 / 2 : ℝ)⌋ : ℤ) = 128 := Int.floor_eq_iff.mpr ⟨by norm_num, by norm_num⟩
    rw [hfl]
    rfl

/-! Determinism of the generators with respect to the ambient randomness. -/

/-- Amended C2: `generate_perlin_noise` reads no ambient randomness (its
noise primitive carries the hard-coded seed `0`), and the SiteSet — and
with it the Voronoi field — is a deterministic function of the values the
code draws from `thread_rng`; but `thread_rng` is not seeded by the
program, so the SiteSet is not a function of any seed. -/
theorem rng_determinism (noiseFn : ℝ → ℝ → ℝ) (r1 r2 : ℕ → ℝ)
    (hagree : ∀ i, i < 2 * NUM_POINTS → r1 i = r2 i) :
    (mainRun noiseFn r1).2.1 = (mainRun noiseFn r2).2.1 ∧
    genSites NUM_POINTS r1 = genSites NUM_POINTS r2 ∧
    (mainRun noiseFn r1).1 = (mainRun noiseFn r2).1 := by
  have hsites : genSites NUM_POINTS r1 = genSites NUM_POINTS r2 := by
    unfold genSites
    apply List.map_congr_left
    intro k hk
    rw [List.mem_range] at hk
    have h1 : 2 * k < 2 * NUM_POINTS := by omega
    have h2 : 2 * k + 1 < 2 * NUM_POINTS := by omega
    rw [hagree _ h1, hagree _ h2]
  have hvor : generate_tileable_voronoi SIZE NUM_POINTS r1 =
      generate_tileable_voronoi SIZE NUM_POINTS r2 := by
    unfold generate_tileable_voronoi
    rw [hsites]
  refine ⟨?_, hsites, ?_⟩
  · show generate_perlin_noise noiseFn = generate_perlin_noise noiseFn
    rfl
  · show generate_tileable_voronoi SIZE NUM_POINTS r1 =
      generate_tileable_voronoi SIZE NUM_POINTS r2
    exact hvor

/-- Witness for `rng_determinism` with a concrete stream. -/
theorem rng_determinism_witness :
    (mainRun zeroNoise (fun _ => 0)).2.1 = (mainRun zeroNoise (fun _ => 0)).2.1 ∧
    genSites NUM_POINTS (fun _ => 0) = genSites NUM_POINTS (fun _ => 0) ∧
    (mainRun zeroNoise (fun _ => 0)).1 = (mainRun zeroNoise (fun _ => 0)).1 :=
  rng_determinism zeroNoise (fun _ => 0) (fun _ => 0) (fun _ _ => rfl)

/-- Counterexample to C2 as frozen: the SiteSet is drawn from the unseeded
`thread_rng`; two runs whose ambient streams differ produce different
SiteSets, so the SiteSet is not a function of a seed alone. -/
theorem sites_not_seed_determined :
    genSites NUM_POINTS (fun _ => (0 : ℝ)) ≠ genSites NUM_POINTS (fun _ => (1 / 2 : ℝ)) := by
  intro h
  have h0 := congrArg (fun l : List Point => l[0]?) h
  simp only [genSites, NUM_POINTS, List.getElem?_map,
    List.getElem?_range (by norm_num : (0 : ℕ) < 240), Option.map_some'] at h0
  have hx := congrArg (fun p : Option Point => (p.map Point.x).getD 7) h0
  simp only [Option.map_some', Option.getD_some] at hx
  norm_num at hx

/-! The Voronoi distance field: general quantization shape and concrete
evaluations. -/

theorem toroidal_distance_nonneg (p q : Point) : 0 ≤ toroidal_distance p q :=
  Real.sqrt_nonneg _

theorem foldl_min_map {α β : Type*} [LinearOrder β] (f : α → β) (l : List α) (a : β) :
    l.foldl (fun acc p => min acc (f p)) a = (l.map f).foldl min a := by
  induction l generalizing a with
  | nil => rfl
  | cons b t ih =>
    simp only [List.foldl_cons, List.map_cons]
    exact ih (min a (f b))

theorem minDistTo_nonneg (sites : List Point) (c : Point) : 0 ≤ minDistTo sites c := by
  cases sites with
  | nil => exact le_refl 0
  | cons s rest =>
    show 0 ≤ rest.foldl (fun acc p => min acc (toroidal_distance c p)) (toroidal_distance c s)
    rw [foldl_min_map (toroidal_distance c) rest (toroidal_distance c s)]
    rcases foldl_min_choice (rest.map (toroidal_distance c)) (toroidal_distance c s) with h | h
    · rw [h]
      exact toroidal_distance_nonneg c s
    · obtain ⟨p, _, heq⟩ := List.mem_map.mp h
      rw [← heq]
      exact toroidal_distance_nonneg c p

theorem minDist_le_maxDistance {size : ℕ} {sites : List Point} {x y : ℕ}
    (hx : x < size) (hy : y < size) :
    minDistTo sites (pixPoint size x y) ≤ maxDistance size sites := by
  have hmem : minDistTo sites (pixPoint size x y) ∈ distList size sites := by
    unfold distList
    refine List.mem_map.mpr ⟨(x, y), mem_gridL.mpr ⟨hx, hy⟩, rfl⟩
  unfold maxDistance
  cases hdl : distList size sites with
  | nil => rw [hdl] at hmem; cases hmem
  | cons v rest =>
    rw [hdl] at hmem
    rcases List.mem_cons.mp hmem with heq | hmem'
    · rw [heq]
      exact le_foldl_max_init rest v
    · exact mem_le_foldl_max hmem' v

/-- Amended C1: for `N ≥ 1` sites and an in-grid pixel, provided
`maxDist > 0`, the stored intensity is `255 - trunc(t * 255)` (truncation,
not rounding) for `t = 1 - d / maxDist`; a pixel at distance `0` gets
intensity `0` (darkest) and a pixel attaining `maxDist` gets exactly
`255` (brightest). -/
theorem voronoi_pixel_intensity (size : ℕ) (sites : List Point) (x y : ℕ)
    (hne : sites ≠ []) (hx : x < size) (hy : y < size)
    (hm : 0 < maxDistance size sites) :
    voronoiRed size sites x y =
      255 - (⌊(1 - minDistTo sites (pixPoint size x y) / maxDistance size sites) * 255⌋).toNat ∧
    (minDistTo sites (pixPoint size x y) = 0 → voronoiRed size sites x y = 0) ∧
    (minDistTo sites (pixPoint size x y) = maxDistance size sites →
      voronoiRed size sites x y = 255) := by
  have hd0 : 0 ≤ minDistTo sites (pixPoint size x y) := minDistTo_nonneg sites _
  have hdm : minDistTo sites (pixPoint size x y) ≤ maxDistance size sites :=
    minDist_le_maxDistance hx hy
  have hmne : ¬ maxDistance size sites = 0 := ne_of_gt hm
  have hmain : voronoiRed size sites x y =
      255 - satU8 ⌊(1 - minDistTo sites (pixPoint size x y) / maxDistance size sites) * 255⌋ := by
    show (if maxDistance size sites = 0 then 255
          else 255 - satU8
            ⌊(1 - minDistTo sites (pixPoint size x y) / maxDistance size sites) * 255⌋) = _
    rw [if_neg hmne]
  have ht0 : 0 ≤ (1 - minDistTo sites (pixPoint size x y) / maxDistance size sites) * 255 := by
    have : minDistTo sites (pixPoint size x y) / maxDistance size sites ≤ 1 :=
      (div_le_one hm).mpr hdm
    nlinarith
  have ht255 : (1 - minDistTo sites (pixPoint size x y) / maxDistance size sites) * 255 ≤ 255 := by
    have : 0 ≤ minDistTo sites (pixPoint size x y) / maxDistance size sites :=
      div_nonneg hd0 (le_of_lt hm)
    nlinarith
  have hfl255 : (⌊(255 : ℝ)⌋ : ℤ) = 255 := Int.floor_eq_iff.mpr ⟨by norm_num, by norm_num⟩
  have hsat : satU8 ⌊(1 - minDistTo sites (pixPoint size x y) / maxDistance size sites) * 255⌋ =
      (⌊(1 - minDistTo sites (pixPoint size x y) / maxDistance size sites) * 255⌋).toNat := by
    apply satU8_eq
    · exact Int.floor_nonneg.mpr ht0
    · calc ⌊(1 - minDistTo sites (pixPoint size x y) / maxDistance size sites) * 255⌋
          ≤ ⌊(255 : ℝ)⌋ := Int.floor_le_floor ht255
        _ = 255 := hfl255
  refine ⟨by rw [hmain, hsat], ?_, ?_⟩
  · intro h0
    rw [hmain, h0]
    have harg : (1 - 0 / maxDistance size sites) * 255 = (255 : ℝ) := by
      rw [zero_div]
      ring
    rw [harg, hfl255]
    rfl
  · intro hdm'
    rw [hmain, hdm']
    have harg : (1 - maxDistance size sites / maxDistance size sites) * 255 = (0 : ℝ) := by
      rw [div_self hmne]
      ring
    rw [harg, Int.floor_zero]
    rfl

/-- The concrete site configuration used by the C1 witness and
counterexample: three sites in the unit square with a `SIZE = 2` grid. -/
noncomputable def cfgSites : List Point := [⟨0, 0⟩, ⟨0, 1 / 2⟩, ⟨1 / 4, 0⟩]

theorem sqrt_quarter : Real.sqrt (1 / 4 : ℝ) = 1 / 2 := by
  rw [show (1 / 4 : ℝ) = (1 / 2) ^ 2 by norm_num,
    Real.sqrt_sq (by norm_num : (0 : ℝ) ≤ 1 / 2)]

theorem half_le_sqrt_half : (1 / 2 : ℝ) ≤ Real.sqrt (1 / 2) := by
  nth_rewrite 1 [← sqrt_quarter]
  exact Real.sqrt_le_sqrt (by norm_num)

theorem half_le_sqrt_516 : (1 / 2 : ℝ) ≤ Real.sqrt (5 / 16) := by
  rw [← sqrt_quarter]
  exact Real.sqrt_le_sqrt (by norm_num)

theorem minDist_P00 : minDistTo cfgSites ⟨0, 0⟩ = 0 := by
  show min (min (toroidal_distance ⟨0, 0⟩ ⟨0, 0⟩) (toroidal_distance ⟨0, 0⟩ ⟨0, 1 / 2⟩))
        (toroidal_distance ⟨0, 0⟩ ⟨1 / 4, 0⟩) = 0
  have h1 : toroidal_distance ⟨0, 0⟩ (⟨0, 0⟩ : Point) = 0 := by
    unfold toroidal_distance
    norm_num
  have h2 : toroidal_distance ⟨0, 0⟩ (⟨0, 1 / 2⟩ : Point) = 1 / 2 := by
    unfold toroidal_distance
    have ha : |(0 : ℝ) - 1 / 2| = 1 / 2 := by rw [abs_of_nonpos] <;> norm_num
    rw [ha]
    norm_num
    rw [show (4 : ℝ) = 2 ^ 2 by norm_num, Real.sqrt_sq (by norm_num : (0 : ℝ) ≤ 2)]
    norm_num
  have h3 : toroidal_distance ⟨0, 0⟩ (⟨1 / 4, 0⟩ : Point) = 1 / 4 := by
    unfold toroidal_distance
    have ha : |(0 : ℝ) - 1 / 4| = 1 / 4 := by rw [abs_of_nonpos] <;> norm_num
    rw [ha]
    norm_num
    rw [show (16 : ℝ) = 4 ^ 2 by norm_num, Real.sqrt_sq (by norm_num : (0 : ℝ) ≤ 4)]
    norm_num
  rw [h1, h2, h3]
  norm_num [min_def]

theorem minDist_P01 : minDistTo cfgSites ⟨0, 1 / 2⟩ = 0 := by
  show min (min (toroidal_distance ⟨0, 1 / 2⟩ ⟨0, 0⟩) (toroidal_distance ⟨0, 1 / 2⟩ ⟨0, 1 / 2⟩))
        (toroidal_distance ⟨0, 1 / 2⟩ ⟨1 / 4, 0⟩) = 0
  have h1 : 0 ≤ toroidal_distance ⟨0, 1 / 2⟩ (⟨0, 0⟩ : Point) := toroidal_distance_nonneg _ _
  have h2 : toroidal_distance ⟨0, 1 / 2⟩ (⟨0, 1 / 2⟩ : Point) = 0 := by
    unfold toroidal_distance
    norm_num
  have h3 : 0 ≤ toroidal_distance ⟨0, 1 / 2⟩ (⟨1 / 4, 0⟩ : Point) :=
    toroidal_distance_nonneg _ _
  rw [h2, min_eq_right h1, min_eq_left h3]

theorem minDist_P10 : minDistTo cfgSites ⟨1 / 2, 0⟩ = 1 / 4 := by
  show min (min (toroidal_distance ⟨1 / 2, 0⟩ ⟨0, 0⟩) (toroidal_distance ⟨1 / 2, 0⟩ ⟨0, 1 / 2⟩))
        (toroidal_distance ⟨1 / 2, 0⟩ ⟨1 / 4, 0⟩) = 1 / 4
  have h1 : toroidal_distance ⟨1 / 2, 0⟩ (⟨0, 0⟩ : Point) = 1 / 2 := by
    unfold toroidal_distance
    have ha : |(1 / 2 : ℝ) - 0| = 1 / 2 := by rw [abs_of_nonneg] <;> norm_num
    rw [ha]
    norm_num
    rw [show (4 : ℝ) = 2 ^ 2 by norm_num, Real.sqrt_sq (by norm_num : (0 : ℝ) ≤ 2)]
    norm_num
  have h2 : toroidal_distance ⟨1 / 2, 0⟩ (⟨0, 1 / 2⟩ : Point) = Real.sqrt (1 / 2) := by
    unfold toroidal_distance
    have ha : |(1 / 2 : ℝ) - 0| = 1 / 2 := by rw [abs_of_nonneg] <;> norm_num
    have hb : |(0 : ℝ) - 1 / 2| = 1 / 2 := by rw [abs_of_nonpos] <;> norm_num
    rw [ha, hb]
    norm_num
  have h3 : toroidal_distance ⟨1 / 2, 0⟩ (⟨1 / 4, 0⟩ : Point) = 1 / 4 := by
    unfold toroidal_distance
    have ha : |(1 / 2 : ℝ) - 1 / 4| = 1 / 4 := by rw [abs_of_nonneg] <;> norm_num
    rw [ha]
    norm_num
    rw [show (16 : ℝ) = 4 ^ 2 by norm_num, Real.sqrt_sq (by norm_num : (0 : ℝ) ≤ 4)]
    norm_num
  rw [h1, h2, h3, min_eq_left half_le_sqrt_half]
  norm_num [min_def]

theorem minDist_P11 : minDistTo cfgSites ⟨1 / 2, 1 / 2⟩ = 1 / 2 := by
  show min (min (toroidal_distance ⟨1 / 2, 1 / 2⟩ ⟨0, 0⟩)
          (toroidal_distance ⟨1 / 2, 1 / 2⟩ ⟨0, 1 / 2⟩))
        (toroidal_distance ⟨1 / 2, 1 / 2⟩ ⟨1 / 4, 0⟩) = 1 / 2
  have h1 : toroidal_distance ⟨1 / 2, 1 / 2⟩ (⟨0, 0⟩ : Point) = Real.sqrt (1 / 2) := by
    unfold toroidal_distance
    have ha : |(1 / 2 : ℝ) - 0| = 1 / 2 := by rw [abs_of_nonneg] <;> norm_num
    rw [ha]
    norm_num
  have h2 : toroidal_distance ⟨1 / 2, 1 / 2⟩ (⟨0, 1 / 2⟩ : Point) = 1 / 2 := by
    unfold toroidal_distance
    have ha : |(1 / 2 : ℝ) - 0| = 1 / 2 := by rw [abs_of_nonneg] <;> norm_num
    rw [ha]
    norm_num
    rw [show (4 : ℝ) = 2 ^ 2 by norm_num, Real.sqrt_sq (by norm_num : (0 : ℝ) ≤ 2)]
    norm_num
  have h3 : toroidal_distance ⟨1 / 2, 1 / 2⟩ (⟨1 / 4, 0⟩ : Point) = Real.sqrt (5 / 16) := by
    unfold toroidal_distance
    have ha : |(1 / 2 : ℝ) - 1 / 4| = 1 / 4 := by rw [abs_of_nonneg] <;> norm_num
    have hb : |(1 / 2 : ℝ) - 0| = 1 / 2 := by rw [abs_of_nonneg] <;> norm_num
    rw [ha, hb]
    norm_num
  rw [h1, h2, h3, min_eq_right half_le_sqrt_half, min_eq_left half_le_sqrt_516]

theorem pix00 : pixPoint 2 0 0 = (⟨0, 0⟩ : Point) := by
  unfold pixPoint
  norm_num

theorem pix01 : pixPoint 2 0 1 = (⟨0, 1 / 2⟩ : Point) := by
  unfold pixPoint
  norm_num

theorem pix10 : pixPoint 2 1 0 = (⟨1 / 2, 0⟩ : Point) := by
  unfold pixPoint
  norm_num

theorem pix11 : pixPoint 2 1 1 = (⟨1 / 2, 1 / 2⟩ : Point) := by
  unfold pixPoint
  norm_num

theorem maxDistance_cfg : maxDistance 2 cfgSites = 1 / 2 := by
  show List.foldl max (minDistTo cfgSites (pixPoint 2 0 0))
        [minDistTo cfgSites (pixPoint 2 0 1), minDistTo cfgSites (pixPoint 2 1 0),
         minDistTo cfgSites (pixPoint 2 1 1)] = 1 / 2
  rw [pix00, pix01, pix10, pix11, minDist_P00, minDist_P01, minDist_P10, minDist_P11]
  simp only [List.foldl_cons, List.foldl_nil]
  norm_num [max_def]

/-- Counterexample to C1 as frozen: at the `SIZE = 2` configuration
`cfgSites`, pixel `(1, 0)` has `t * 255 = 127.5`; the code truncates
(`as u8`), storing `255 - 127 = 128`, while the claimed
`255 - round(t * 255)` is `255 - 128 = 127`. -/
theorem voronoi_round_claim_false :
    voronoiRed 2 cfgSites 1 0 ≠
      255 - (rRound ((1 - minDistTo cfgSites (pixPoint 2 1 0) / maxDistance 2 cfgSites)
        * 255)).toNat := by
  have hmd : minDistTo cfgSites (pixPoint 2 1 0) = 1 / 4 := by
    rw [pix10]
    exact minDist_P10
  have hLHS : voronoiRed 2 cfgSites 1 0 = 128 := by
    show (if maxDistance 2 cfgSites = 0 then 255
          else 255 - satU8
            ⌊(1 - minDistTo cfgSites (pixPoint 2 1 0) / maxDistance 2 cfgSites) * 255⌋) = 128
    rw [maxDistance_cfg, hmd, if_neg (by norm_num : ¬ (1 / 2 : ℝ) = 0)]
    have harg : (1 - (1 / 4 : ℝ) / (1 / 2)) * 255 = 255 / 2 := by norm_num
    rw [harg]
    have hfl : (⌊(255 / 2 : ℝ)⌋ : ℤ) = 127 := Int.floor_eq_iff.mpr ⟨by norm_num, by norm_num⟩
    rw [hfl]
    rfl
  have hRHS : (255 : ℕ) - (rRound ((1 - (1 / 4 : ℝ) / (1 / 2)) * 255)).toNat = 127 := by
    have harg : (1 - (1 / 4 : ℝ) / (1 / 2)) * 255 = 255 / 2 := by norm_num
    rw [harg]
    unfold rRound
    rw [if_pos (by norm_num : (0 : ℝ) ≤ 255 / 2)]
    have hfl : (⌊(255 / 2 + 1 / 2 : ℝ)⌋ : ℤ) = 128 :=
      Int.floor_eq_iff.mpr ⟨by norm_num, by norm_num⟩
    rw [hfl]
    rfl
  rw [hmd, maxDistance_cfg, hLHS, hRHS]
  norm_num

/-- Witness for `voronoi_pixel_intensity` at the concrete configuration. -/
theorem voronoi_pixel_intensity_witness :
    (cfgSites ≠ [] ∧ 1 < 2 ∧ 0 < 2 ∧ 0 < maxDistance 2 cfgSites) ∧
    (voronoiRed 2 cfgSites 1 0 =
       255 - (⌊(1 - minDistTo cfgSites (pixPoint 2 1 0) / maxDistance 2 cfgSites) * 255⌋).toNat ∧
     (minDistTo cfgSites (pixPoint 2 1 0) = 0 → voronoiRed 2 cfgSites 1 0 = 0) ∧
     (minDistTo cfgSites (pixPoint 2 1 0) = maxDistance 2 cfgSites →
       voronoiRed 2 cfgSites 1 0 = 255)) := by
  have hm : 0 < maxDistance 2 cfgSites := by
    rw [maxDistance_cfg]
    norm_num
  have hne : cfgSites ≠ [] := List.cons_ne_nil _ _
  exact ⟨⟨hne, by norm_num, by norm_num, hm⟩,
    voronoi_pixel_intensity 2 cfgSites 1 0 hne (by norm_num) (by norm_num) hm⟩

/-- C3 under the degenerate configuration: with a single site at the
origin and a 1×1 grid, `maxDist = 0`, and the generator does NOT fail
fast with an error — the Rust code computes `0.0 / 0.0 = NaN` for the
pixel, the `as u8` cast turns `NaN` into `0`, and the stored intensity is
`255 - 0 = 255`: a garbage all-bright field is returned with no error
path (the function's return type offers none). -/
theorem voronoi_degenerate_no_error :
    maxDistance 1 [(⟨0, 0⟩ : Point)] = 0 ∧ voronoiRed 1 [(⟨0, 0⟩ : Point)] 0 0 = 255 := by
  have htd : toroidal_distance (pixPoint 1 0 0) (⟨0, 0⟩ : Point) = 0 := by
    have hp : pixPoint 1 0 0 = (⟨0, 0⟩ : Point) := by
      unfold pixPoint
      norm_num
    rw [hp]
    unfold toroidal_distance
    norm_num
  have hmd : maxDistance 1 [(⟨0, 0⟩ : Point)] = 0 := by
    show toroidal_distance (pixPoint 1 0 0) (⟨0, 0⟩ : Point) = 0
    exact htd
  refine ⟨hmd, ?_⟩
  show (if maxDistance 1 [(⟨0, 0⟩ : Point)] = 0 then 255
        else 255 - satU8 ⌊(1 - minDistTo [(⟨0, 0⟩ : Point)] (pixPoint 1 0 0) /
          maxDistance 1 [(⟨0, 0⟩ : Point)]) * 255⌋) = 255
  rw [if_pos hmd]

/-- Witness for `blur_count_load_bearing` at radius `0` (the loop runs
once) and radius `-1` (the loop never runs and the output pixel is zero). -/
theorem blur_count_load_bearing_witness :
    ((blurAcc 1 1 constImg5 0 0 0 0).2 = 2 * ((0 : ℤ) : ℝ) + 1 ∧
     (1 : ℝ) ≤ (blurAcc 1 1 constImg5 0 0 0 0).2) ∧
    ((blurAcc 1 1 constImg5 0 0 0 (-1)).2 = 0 ∧
     directional_blur 1 1 constImg5 constImg0 (-1) 0 0 = ⟨0, 0, 0⟩) :=
  ⟨(blur_count_load_bearing 1 1 constImg5 constImg0 0 0 0 0).1 (le_refl 0),
   (blur_count_load_bearing 1 1 constImg5 constImg0 0 (-1) 0 0).2 (by norm_num)⟩

end Cells
